import Mathlib

/-!
# Verification of the stock-data analysis pipeline (`IntroDataScience.py`)

The script is a linear pandas pipeline over one table:

1. load a CSV into a table of rows (`Date`, `Open Price`, `Close Price`,
   `High Price`, `Low Price`, `Volume`), with missing-value tokens mapped
   to a null marker;
2. print head / info / describe sanity checks (over the table as loaded);
3. drop rows with a null in any of `Date`, `Open Price`, `Close Price`
   (`df.dropna(subset=needed)`);
4. sort by `Date` ascending (`df.sort_values(by="Date").reset_index(drop=True)`);
5. add `Daily Change = Close Price - Open Price` and
   `MA_5 = Close Price.rolling(window=5, min_periods=1).mean()`;
6. compute `avg_change` (mean of `Daily Change`), `max_close`, `min_close`.

We model the table as a `List Row`.  Missing values (`NaN`/`NaT`) are
modelled by `none`; numeric values by `ℚ` and dates by `Int` (only the
order of dates matters to the program).

`df.sort_values(by="Date")` with the default `kind='quicksort'` argsorts the
date column with numpy's introsort (`npy_aquicksort` from
`numpy/core/src/npysort/quicksort.c.src`): median-of-3 Hoare partitioning
down to ranges of at most `SMALL_QUICKSORT = 15` gaps (16 elements), which
are finished with a stable insertion sort; a depth limit of
`2 * floor(log2 n)` partitions switches to heapsort.  We embed that argsort
exactly (the permutation array `tosort` is modelled as a function
`Nat → Nat`, swaps as precomposition with transpositions).  The leaf
insertion sort is modelled with `List.insertionSort`, which produces the
same output as the C in-place insertion sort because both are stable sorts
of the same segment.  The heapsort fallback (reached only past the depth
limit, i.e. only on adversarial inputs) is modelled by the same
stable sort of the segment: every theorem below that touches the fallback
branch depends only on its output being a sorted permutation of the
segment, which numpy's heapsort also guarantees; no theorem relies on the
tie order of the fallback.
-/

namespace StockPipeline

/-! ## The argsort used by `sort_values(by="Date", kind='quicksort')` -/

/-- Transposition of the two positions `i` and `j`. -/
def tsp (i j x : Nat) : Nat := if x = i then j else if x = j then i else x

/-- `INTP_SWAP(*pi, *pj)` on the `tosort` array, modelled as a function:
after the swap, position `i` holds the old value of position `j` and
conversely. -/
def swapF (f : Nat → Nat) (i j : Nat) : Nat → Nat := fun x => f (tsp i j x)

/-- The positions `lo, lo+1, ..., hi` (inclusive). -/
def ivalL (lo hi : Nat) : List Nat := (List.range (hi + 1 - lo)).map (fun o => lo + o)

/-- The segment of the `tosort` array between positions `lo` and `hi`
(inclusive). -/
def segL (f : Nat → Nat) (lo hi : Nat) : List Nat := (ivalL lo hi).map f

/-- Comparison of two `tosort` entries through the key (date) array:
`v[a] <= v[b]`. -/
def kle (K : Nat → Int) (a b : Nat) : Prop := K a ≤ K b

instance (K : Nat → Int) : DecidableRel (kle K) :=
  fun a b => inferInstanceAs (Decidable (K a ≤ K b))

instance (K : Nat → Int) : IsTotal Nat (kle K) :=
  ⟨fun a b => Int.le_total (K a) (K b)⟩

instance (K : Nat → Int) : IsTrans Nat (kle K) :=
  ⟨fun _ _ _ hab hbc => le_trans hab hbc⟩

/-- `do ++pi; while (LT(v[*pi], vp))`: first position `≥ i` whose key is
not `< vp` (fuelled; in every use a stopper exists within fuel). -/
def scanUp (K : Nat → Int) (f : Nat → Nat) (vp : Int) : Nat → Nat → Nat
  | 0, i => i
  | fuel+1, i => if K (f i) < vp then scanUp K f vp fuel (i+1) else i

/-- `do --pj; while (LT(vp, v[*pj]))`: first position `≤ j` (scanning down)
whose key is not `> vp`. -/
def scanDown (K : Nat → Int) (f : Nat → Nat) (vp : Int) : Nat → Nat → Nat
  | 0, j => j
  | fuel+1, j => if vp < K (f j) then scanDown K f vp fuel (j-1) else j

/-- The Hoare scan loop of `npy_aquicksort`: starting from pointers
`pi` (last position known `≤ vp`) and `pj` (first position known `≥ vp`),
scan inwards and swap out-of-place pairs until the pointers cross; returns
the crossing position together with the permuted array. -/
def partLoop (K : Nat → Int) (vp : Int) : Nat → (Nat → Nat) → Nat → Nat → Nat × (Nat → Nat)
  | 0, f, pi, _ => (pi, f)
  | fuel+1, f, pi, pj =>
    let pi2 := scanUp K f vp (pj - pi) (pi+1)
    let pj2 := scanDown K f vp (pj - pi) (pj-1)
    if pj2 ≤ pi2 then (pi2, f)
    else partLoop K vp fuel (swapF f pi2 pj2) pi2 pj2

/-- `if (LT(v[*u], v[*v])) INTP_SWAP(*u, *v)`: one conditional swap. -/
def cswap (K : Nat → Int) (f : Nat → Nat) (u v : Nat) : Nat → Nat :=
  if K (f u) < K (f v) then swapF f u v else f

/-- The three conditional swaps putting the median of `v[*pl], v[*pm],
v[*pr]` at position `pm`. -/
def med3 (K : Nat → Int) (f : Nat → Nat) (lo pm hi : Nat) : Nat → Nat :=
  cswap K (cswap K (cswap K f pm lo) hi pm) pm lo

/-- Stable sort of the segment `[lo, hi]`, leaving everything else
unchanged.  This is the final insertion sort of `npy_aquicksort` on small
ranges (`List.insertionSort` is stable, hence produces exactly the same
output as the C in-place insertion sort), and it also stands in for the
depth-limit heapsort fallback (see the header comment). -/
def sortRange (K : Nat → Int) (f : Nat → Nat) (lo hi : Nat) : Nat → Nat :=
  let sorted := List.insertionSort (kle K) (segL f lo hi)
  fun x => if lo ≤ x ∧ x ≤ hi then sorted.getD (x - lo) 0 else f x

/-- One partition step of `npy_aquicksort` on the range `[lo, hi]`:
median-of-3 pivot selection, stash the pivot at `hi - 1`, Hoare scan loop,
and the final swap placing the pivot at the crossing position. -/
def partitionStep (K : Nat → Int) (f : Nat → Nat) (lo hi : Nat) : Nat × (Nat → Nat) :=
  let pm := lo + (hi - lo) / 2
  let f3 := med3 K f lo pm hi
  let vp := K (f3 pm)
  let f4 := swapF f3 pm (hi - 1)
  let pr := partLoop K vp (hi - lo) f4 lo (hi - 1)
  (pr.1, swapF pr.2 pr.1 (hi - 1))

/-- `npy_aquicksort` on the range `[lo, hi]`, with the explicit stack of the
C code rendered as recursion (the C code continues with the smaller
partition and pushes the larger one, which is exactly depth-first
traversal, smaller side first); the shared depth-limit counter `d` is
threaded through in traversal order.  Ranges of at most 16 elements
(`pr - pl <= SMALL_QUICKSORT = 15`) are insertion sorted; when the depth
counter is exhausted the range is finished by the fallback sort.  `fuel` is
an upper bound on the range length (ranges shrink strictly, so any
`fuel ≥ hi + 1 - lo` gives the exact C behaviour). -/
def qs (K : Nat → Int) : Nat → (Nat → Nat) → Nat → Nat → Int → (Nat → Nat) × Int
  | 0, f, _, _, d => (f, d)
  | fuel+1, f, lo, hi, d =>
    if lo + 16 ≤ hi then
      if d < 0 then (sortRange K f lo hi, d - 1)
      else
        let pr := partitionStep K f lo hi
        if pr.1 - lo < hi - pr.1 then
          let q1 := qs K fuel pr.2 lo (pr.1 - 1) (d - 1)
          qs K fuel q1.1 (pr.1 + 1) hi q1.2
        else
          let q1 := qs K fuel pr.2 (pr.1 + 1) hi (d - 1)
          qs K fuel q1.1 lo (pr.1 - 1) q1.2
    else (sortRange K f lo hi, d)

/-- `np.argsort(keys, kind='quicksort')` for an array of `n` keys:
`tosort` starts as the identity `[0, ..., n-1]`, the depth limit is
`2 * floor(log2 n)`, and the result is the permuted index list. -/
def argsortQ (K : Nat → Int) (n : Nat) : List Nat :=
  (List.range n).map (qs K n (fun x => x) 0 (n - 1) (2 * (Nat.log2 n : Int))).1

/-! ## Data model: the Observation Table -/

/-- One row of the observation table.  `none` models a pandas null
(`NaN`/`NaT`); dates are modelled by integers (the program only uses their
order), prices and volume by rationals. -/
structure Row where
  date : Option Int
  openPrice : Option ℚ
  closePrice : Option ℚ
  highPrice : Option ℚ
  lowPrice : Option ℚ
  volume : Option ℚ
  deriving DecidableEq, Repr, Inhabited

/-- `needed = ["Date", "Open Price", "Close Price"]`: the row survives
`df.dropna(subset=needed)` iff all three are present. -/
def requiredOk (r : Row) : Bool :=
  r.date.isSome && r.openPrice.isSome && r.closePrice.isSome

/-- The sort key of a row: its date (cleaning guarantees the date is
present wherever this is used). -/
def dateKey (r : Row) : Int := r.date.getD 0

/-- The key array handed to the argsort: position `i` holds the date of the
`i`-th retained row. -/
def keyOf (kept : List Row) : Nat → Int := fun i => dateKey (kept.getD i default)

/-- The permutation produced by `sort_values(by="Date")` on the table left
by `dropna`. -/
def cleanPerm (raw : List Row) : List Nat :=
  argsortQ (keyOf (raw.filter requiredOk)) (raw.filter requiredOk).length

/-- The Cleaner: `df.dropna(subset=needed)` followed by
`df.sort_values(by="Date").reset_index(drop=True)`. -/
def clean (raw : List Row) : List Row :=
  (cleanPerm raw).map (fun i => (raw.filter requiredOk).getD i default)

/-! ## Feature engineering -/

/-- A row of the feature-engineered table: the original columns plus the
two derived ones. -/
structure FeatRow where
  base : Row
  dailyChange : Option ℚ
  ma5 : Option ℚ
  deriving DecidableEq, Repr, Inhabited

/-- `df["Daily Change"] = df["Close Price"] - df["Open Price"]`, per row;
null propagates as in pandas. -/
def dailyChangeOf (r : Row) : Option ℚ :=
  match r.closePrice, r.openPrice with
  | some c, some o => some (c - o)
  | _, _ => none

/-- The `Close Price` column. -/
def closeCol (t : List Row) : List (Option ℚ) := t.map (fun r => r.closePrice)

/-- The non-null values inside the rolling window ending at row `i`: rows
`max (0, i-4)` to `i` (note `i + 1 - 5 = max 0 (i - 4)` in `ℕ`). -/
def winVals (closes : List (Option ℚ)) (i : Nat) : List ℚ :=
  ((closes.take (i+1)).drop (i + 1 - 5)).filterMap id

/-- `Close.rolling(window=5, min_periods=1).mean()` at row `i`: the mean of
the non-null closes in the window, null if the window holds none. -/
def ma5At (closes : List (Option ℚ)) (i : Nat) : Option ℚ :=
  if (winVals closes i).length = 0 then none
  else some ((winVals closes i).sum / ((winVals closes i).length : ℚ))

/-- The Feature Engine: appends `Daily Change` and `MA_5` to every row. -/
def features (t : List Row) : List FeatRow :=
  (List.range t.length).map (fun i =>
    { base := t.getD i default,
      dailyChange := dailyChangeOf (t.getD i default),
      ma5 := ma5At (closeCol t) i })

/-! ## Reporter and the whole run -/

/-- `Series.mean()` (pandas skips nulls; the mean of an empty series is
`NaN`, modelled as `none`). -/
def meanSkipNA (l : List (Option ℚ)) : Option ℚ :=
  if (l.filterMap id).length = 0 then none
  else some ((l.filterMap id).sum / ((l.filterMap id).length : ℚ))

/-- `Series.max()` with pandas null handling. -/
def maxSkipNA (l : List (Option ℚ)) : Option ℚ := (l.filterMap id).max?

/-- `Series.min()` with pandas null handling. -/
def minSkipNA (l : List (Option ℚ)) : Option ℚ := (l.filterMap id).min?

/-- The observable outputs of one run of the script, in script order:
`headRows`, `infoTable` and `describeTable` are the tables over which
`df.head()`, `df.info()` and `df.describe(numeric_only=True)` are evaluated
at lines 45-52, `featured` is the table after cleaning and feature
engineering, and the three scalars are the tiny data story of lines
97-99. -/
structure RunOutput where
  headRows : List Row
  infoTable : List Row
  describeTable : List Row
  featured : List FeatRow
  avg_change : Option ℚ
  max_close : Option ℚ
  min_close : Option ℚ
  deriving Repr

/-- The whole script, mirroring the statement order of
`IntroDataScience.py`: the sanity-check prints happen on the freshly loaded
`df`, then `df` is cleaned, then the two feature columns are added, then
the three summary scalars are computed. -/
def run (raw : List Row) : RunOutput :=
  let df0 := raw
  let hd := df0.take 5
  let info0 := df0
  let desc0 := df0
  let df1 := clean df0
  let df2 := features df1
  { headRows := hd, infoTable := info0, describeTable := desc0, featured := df2,
    avg_change := meanSkipNA (df2.map (fun r => r.dailyChange)),
    max_close := maxSkipNA (df2.map (fun r => r.base.closePrice)),
    min_close := minSkipNA (df2.map (fun r => r.base.closePrice)) }

/-- Rounding to two decimal places, as `f"{x:.2f}"` displays a value. -/
def round2 (q : ℚ) : ℚ := (round (q * 100) : ℚ) / 100

/-! ## Specification-side predicates -/

/-- Row `r` does not come after row `s` in date order. -/
def dateLE (r s : Row) : Prop := dateKey r ≤ dateKey s

instance : DecidableRel dateLE := fun r s => inferInstanceAs (Decidable (dateKey r ≤ dateKey s))

/-- The table is in non-decreasing date order. -/
def DatesSorted (t : List Row) : Prop := List.Pairwise dateLE t

instance (t : List Row) : Decidable (DatesSorted t) :=
  inferInstanceAs (Decidable (List.Pairwise dateLE t))

/-- The table is in strictly increasing date order (no repeated dates). -/
def StrictDates (t : List Row) : Prop := List.Pairwise (fun r s => dateKey r < dateKey s) t

instance (t : List Row) : Decidable (StrictDates t) :=
  inferInstanceAs (Decidable (List.Pairwise (fun r s => dateKey r < dateKey s) t))

/-- The Cleaner's sort kept every pair of equal-date retained rows in their
original relative order: the sort permutation lists equal-key indices in
increasing order. -/
def StableTies (raw : List Row) : Prop :=
  List.Pairwise
    (fun a b => keyOf (raw.filter requiredOk) a = keyOf (raw.filter requiredOk) b → a < b)
    (cleanPerm raw)

instance (raw : List Row) : Decidable (StableTies raw) :=
  inferInstanceAs (Decidable (List.Pairwise
    (fun a b => keyOf (raw.filter requiredOk) a = keyOf (raw.filter requiredOk) b → a < b)
    (cleanPerm raw)))

/-- The table looks already cleaned: every required column present and rows
in non-decreasing date order. -/
def CleanedTable (t : List Row) : Prop :=
  (∀ r ∈ t, requiredOk r = true) ∧ DatesSorted t

instance (t : List Row) : Decidable (CleanedTable t) :=
  inferInstanceAs (Decidable ((∀ r ∈ t, requiredOk r = true) ∧ DatesSorted t))

/-- The keys of positions `lo` to `hi` are in non-decreasing order. -/
def SortedSeg (K : Nat → Int) (f : Nat → Nat) (lo hi : Nat) : Prop :=
  ∀ i j, lo ≤ i → i ≤ j → j ≤ hi → K (f i) ≤ K (f j)

/-! ## Concrete tables used as witnesses and counterexamples -/

/-- A fully populated row (high/low left null; they are optional). -/
def mkRow (d : Int) (o c : ℚ) (v : Option ℚ) : Row :=
  { date := some d, openPrice := some o, closePrice := some c,
    highPrice := none, lowPrice := none, volume := v }

/-- The spec's example scenario: 2025-07-01 (100, 105), 2025-07-02
(105, 102), 2025-07-03 (102, 108). -/
def exampleC7 : List Row :=
  [mkRow 20250701 100 105 none, mkRow 20250702 105 102 none, mkRow 20250703 102 108 none]

/-- The example scenario rows given in reverse date order. -/
def exampleRev : List Row :=
  [mkRow 20250703 102 108 none, mkRow 20250702 105 102 none, mkRow 20250701 100 105 none]

/-- 17 rows sharing one date, tagged by distinct volumes: the smallest kind
of table on which numpy's introsort leaves the insertion-sort regime. -/
def tie17 : List Row := (List.range 17).map (fun i => mkRow 1 1 1 (some (i : ℚ)))

/-- One row whose only null is `Open Price`: dropped by the Cleaner. -/
def badOpenRow : Row :=
  { date := some 5, openPrice := none, closePrice := some 2,
    highPrice := none, lowPrice := none, volume := some 3 }

/-- A raw table whose head/info/describe tables differ from the
feature-engineered table. -/
def rawC8 : List Row := [badOpenRow]

/-- A raw table that is empty after cleaning. -/
def rawC9 : List Row :=
  [{ date := some 5, openPrice := none, closePrice := some 2,
     highPrice := none, lowPrice := none, volume := none }]

/-- A raw table with a tie: used to witness stability in the small regime. -/
def rawTieSmall : List Row :=
  [mkRow 7 1 1 (some 0), mkRow 3 1 1 (some 1), mkRow 3 1 1 (some 2)]

/-- A row with every required column present and `Volume` null. -/
def volNullRow : Row :=
  { date := some 9, openPrice := some 4, closePrice := some 6,
    highPrice := some 7, lowPrice := some 3, volume := none }

/-- A raw table mixing a droppable row (null `Open Price`) with a retained
row (null only in the optional `Volume`). -/
def rawC5 : List Row := [badOpenRow, volNullRow]

/-! ## Basic lemmas: transpositions, position intervals, segments -/

theorem tsp_left (i j : Nat) : tsp i j i = j := by simp [tsp]

theorem tsp_right (i j : Nat) : tsp i j j = i := by
  by_cases h : j = i <;> simp [tsp, h]

theorem tsp_other {i j x : Nat} (hx1 : x ≠ i) (hx2 : x ≠ j) : tsp i j x = x := by
  simp [tsp, hx1, hx2]

theorem tsp_invol (i j x : Nat) : tsp i j (tsp i j x) = x := by
  by_cases h1 : x = i
  · subst h1; rw [tsp_left, tsp_right]
  · by_cases h2 : x = j
    · subst h2; rw [tsp_right, tsp_left]
    · rw [tsp_other h1 h2, tsp_other h1 h2]

theorem tsp_inj (i j : Nat) : Function.Injective (tsp i j) := by
  intro a b h
  rw [← tsp_invol i j a, h, tsp_invol]

theorem tsp_bounds {lo hi i j : Nat} (hi1 : lo ≤ i) (hi2 : i ≤ hi) (hj1 : lo ≤ j)
    (hj2 : j ≤ hi) (x : Nat) : (lo ≤ tsp i j x ∧ tsp i j x ≤ hi) ↔ (lo ≤ x ∧ x ≤ hi) := by
  unfold tsp
  split_ifs with h1 h2
  · subst h1; omega
  · subst h2; omega
  · exact Iff.rfl

theorem swapF_left (f : Nat → Nat) (i j : Nat) : swapF f i j i = f j := by
  simp [swapF, tsp_left]

theorem swapF_right (f : Nat → Nat) (i j : Nat) : swapF f i j j = f i := by
  simp [swapF, tsp_right]

theorem swapF_other {i j x : Nat} (f : Nat → Nat) (hx1 : x ≠ i) (hx2 : x ≠ j) :
    swapF f i j x = f x := by
  simp [swapF, tsp_other hx1 hx2]

theorem mem_ivalL {lo hi x : Nat} : x ∈ ivalL lo hi ↔ lo ≤ x ∧ x ≤ hi := by
  simp only [ivalL, List.mem_map, List.mem_range]
  constructor
  · rintro ⟨o, ho, rfl⟩; omega
  · intro h; exact ⟨x - lo, by omega, by omega⟩

theorem ivalL_nodup (lo hi : Nat) : (ivalL lo hi).Nodup :=
  (List.nodup_range _).map (fun a b h => by omega)

theorem length_ivalL (lo hi : Nat) : (ivalL lo hi).length = hi + 1 - lo := by
  simp [ivalL]

theorem length_segL (f : Nat → Nat) (lo hi : Nat) : (segL f lo hi).length = hi + 1 - lo := by
  simp [segL, length_ivalL]

theorem segL_congr {f g : Nat → Nat} {lo hi : Nat}
    (h : ∀ x, lo ≤ x → x ≤ hi → f x = g x) : segL f lo hi = segL g lo hi := by
  refine List.map_congr_left (fun x hx => ?_)
  rcases mem_ivalL.mp hx with ⟨h1, h2⟩
  exact h x h1 h2

theorem mem_segL {lo hi x : Nat} (f : Nat → Nat) (hx1 : lo ≤ x) (hx2 : x ≤ hi) :
    f x ∈ segL f lo hi :=
  List.mem_map_of_mem f (mem_ivalL.mpr ⟨hx1, hx2⟩)

theorem exists_of_mem_segL {f : Nat → Nat} {lo hi : Nat} {y : Nat}
    (h : y ∈ segL f lo hi) : ∃ x, lo ≤ x ∧ x ≤ hi ∧ f x = y := by
  rcases List.mem_map.mp h with ⟨x, hx, rfl⟩
  rcases mem_ivalL.mp hx with ⟨h1, h2⟩
  exact ⟨x, h1, h2, rfl⟩

theorem map_tsp_ivalL {lo hi i j : Nat} (hi1 : lo ≤ i) (hi2 : i ≤ hi) (hj1 : lo ≤ j)
    (hj2 : j ≤ hi) : ((ivalL lo hi).map (tsp i j)).Perm (ivalL lo hi) := by
  refine (List.perm_ext_iff_of_nodup ((ivalL_nodup lo hi).map (tsp_inj i j))
    (ivalL_nodup lo hi)).mpr (fun a => ?_)
  simp only [List.mem_map]
  constructor
  · rintro ⟨x, hx, rfl⟩
    exact mem_ivalL.mpr ((tsp_bounds hi1 hi2 hj1 hj2 x).mpr (mem_ivalL.mp hx))
  · intro ha
    refine ⟨tsp i j a, ?_, tsp_invol i j a⟩
    exact mem_ivalL.mpr ((tsp_bounds hi1 hi2 hj1 hj2 a).mpr (mem_ivalL.mp ha))

theorem segL_swapF_perm {lo hi i j : Nat} (f : Nat → Nat) (hi1 : lo ≤ i) (hi2 : i ≤ hi)
    (hj1 : lo ≤ j) (hj2 : j ≤ hi) : (segL (swapF f i j) lo hi).Perm (segL f lo hi) := by
  have h : segL (swapF f i j) lo hi = ((ivalL lo hi).map (tsp i j)).map f := by
    simp [segL, swapF, List.map_map]
  rw [h]
  exact (map_tsp_ivalL hi1 hi2 hj1 hj2).map f

theorem segL_getElem {f : Nat → Nat} {lo hi o : Nat} (h : o < (segL f lo hi).length) :
    (segL f lo hi)[o] = f (lo + o) := by
  simp [segL, ivalL]

theorem ivalL_append {lo hi m : Nat} (hm1 : lo ≤ m + 1) (hm2 : m ≤ hi) :
    ivalL lo hi = ivalL lo m ++ ivalL (m+1) hi := by
  unfold ivalL
  have h1 : hi + 1 - lo = (m + 1 - lo) + (hi + 1 - (m+1)) := by omega
  rw [h1, List.range_add, List.map_append, List.map_map]
  congr 1
  refine List.map_congr_left (fun o ho => ?_)
  simp only [Function.comp_apply]
  omega

theorem segL_append (f : Nat → Nat) (lo m hi : Nat) (hm1 : lo ≤ m + 1) (hm2 : m ≤ hi) :
    segL f lo hi = segL f lo m ++ segL f (m+1) hi := by
  unfold segL
  rw [ivalL_append hm1 hm2, List.map_append]

theorem segL_single (f : Nat → Nat) (x : Nat) : segL f x x = [f x] := by
  simp [segL, ivalL, List.range_succ, Function.comp]

/-! ## The small-range / fallback sort: specification -/

theorem sortRange_outside {lo hi x : Nat} (K : Nat → Int) (f : Nat → Nat)
    (h : x < lo ∨ hi < x) : sortRange K f lo hi x = f x := by
  have hc : ¬ (lo ≤ x ∧ x ≤ hi) := by omega
  show (if lo ≤ x ∧ x ≤ hi then _ else f x) = f x
  rw [if_neg hc]

theorem segL_sortRange (K : Nat → Int) (f : Nat → Nat) (lo hi : Nat) :
    segL (sortRange K f lo hi) lo hi = List.insertionSort (kle K) (segL f lo hi) := by
  refine List.ext_getElem ?_ (fun o h1 h2 => ?_)
  · rw [length_segL, List.length_insertionSort, length_segL]
  · rw [segL_getElem h1]
    rw [length_segL] at h1
    have hb : lo ≤ lo + o ∧ lo + o ≤ hi := ⟨Nat.le_add_right _ _, by omega⟩
    show (if lo ≤ lo + o ∧ lo + o ≤ hi
      then (List.insertionSort (kle K) (segL f lo hi)).getD (lo + o - lo) 0
      else f (lo + o)) = _
    rw [if_pos hb]
    have ho : lo + o - lo = o := by omega
    rw [ho, List.getD_eq_getElem _ _ h2]

theorem sortRange_perm (K : Nat → Int) (f : Nat → Nat) (lo hi : Nat) :
    (segL (sortRange K f lo hi) lo hi).Perm (segL f lo hi) := by
  rw [segL_sortRange]
  exact List.perm_insertionSort _ _

theorem sortRange_sortedSeg (K : Nat → Int) (f : Nat → Nat) (lo hi : Nat) :
    SortedSeg K (sortRange K f lo hi) lo hi := by
  intro i j hi1 hij hj2
  rcases eq_or_lt_of_le hij with rfl | hlt
  · exact le_refl _
  · have hs : List.Sorted (kle K) (segL (sortRange K f lo hi) lo hi) := by
      rw [segL_sortRange]
      exact List.sorted_insertionSort _ _
    have h1 : i - lo < (segL (sortRange K f lo hi) lo hi).length := by
      rw [length_segL]; omega
    have h2 : j - lo < (segL (sortRange K f lo hi) lo hi).length := by
      rw [length_segL]; omega
    have hp := List.pairwise_iff_getElem.mp hs (i - lo) (j - lo) h1 h2 (by omega)
    rw [segL_getElem h1, segL_getElem h2] at hp
    have hi' : lo + (i - lo) = i := by omega
    have hj' : lo + (j - lo) = j := by omega
    rw [hi', hj'] at hp
    exact hp

/-! ## The Hoare scan loops: specification -/

theorem scanUp_spec (K : Nat → Int) (f : Nat → Nat) (vp : Int) :
    ∀ fuel i m, i ≤ m → m - i ≤ fuel → ¬ K (f m) < vp →
      i ≤ scanUp K f vp fuel i ∧ scanUp K f vp fuel i ≤ m ∧
      ¬ K (f (scanUp K f vp fuel i)) < vp ∧
      ∀ x, i ≤ x → x < scanUp K f vp fuel i → K (f x) < vp := by
  intro fuel
  induction fuel with
  | zero =>
    intro i m him hfuel hm
    have he : m = i := by omega
    subst he
    simp only [scanUp]
    exact ⟨le_refl _, le_refl _, hm, fun x hx1 hx2 => absurd hx2 (by omega)⟩
  | succ fuel ih =>
    intro i m him hfuel hm
    by_cases h : K (f i) < vp
    · have hne : i ≠ m := fun e => hm (e ▸ h)
      have h1 : i + 1 ≤ m := by omega
      have hr := ih (i+1) m h1 (by omega) hm
      simp only [scanUp, if_pos h]
      refine ⟨le_trans (Nat.le_succ i) hr.1, hr.2.1, hr.2.2.1, fun x hx1 hx2 => ?_⟩
      rcases eq_or_lt_of_le hx1 with rfl | hx
      · exact h
      · exact hr.2.2.2 x hx hx2
    · simp only [scanUp, if_neg h]
      exact ⟨le_refl _, him, h, fun x hx1 hx2 => absurd hx2 (by omega)⟩

theorem scanDown_spec (K : Nat → Int) (f : Nat → Nat) (vp : Int) :
    ∀ fuel j m, m ≤ j → j - m ≤ fuel → ¬ vp < K (f m) →
      m ≤ scanDown K f vp fuel j ∧ scanDown K f vp fuel j ≤ j ∧
      ¬ vp < K (f (scanDown K f vp fuel j)) ∧
      ∀ x, scanDown K f vp fuel j < x → x ≤ j → vp < K (f x) := by
  intro fuel
  induction fuel with
  | zero =>
    intro j m hmj hfuel hm
    have he : m = j := by omega
    subst he
    simp only [scanDown]
    exact ⟨le_refl _, le_refl _, hm, fun x hx1 hx2 => absurd hx1 (by omega)⟩
  | succ fuel ih =>
    intro j m hmj hfuel hm
    by_cases h : vp < K (f j)
    · have hne : m ≠ j := fun e => hm (e ▸ h)
      have h1 : m ≤ j - 1 := by omega
      have hr := ih (j-1) m h1 (by omega) hm
      simp only [scanDown, if_pos h]
      refine ⟨hr.1, le_trans hr.2.1 (by omega), hr.2.2.1, fun x hx1 hx2 => ?_⟩
      by_cases hxj : x = j
      · exact hxj ▸ h
      · exact hr.2.2.2 x hx1 (by omega)
    · simp only [scanDown, if_neg h]
      exact ⟨hmj, le_refl _, h, fun x hx1 hx2 => absurd hx1 (by omega)⟩

/-! ## The partition scan loop: specification

Entering `partLoop` with pointers `pi < pj`, every position of `[pl, pi]`
is known `≤ vp` and every position of `[pj, prm]` is known `≥ vp`.  The
loop returns the crossing position `p` with `pi < p ≤ pj`; afterwards
positions `[pl, p)` are `≤ vp`, position `p` is `≥ vp`, positions
`(p, prm]` are `≥ vp`; only positions strictly inside `(pl, prm)` are
moved, and the segment `[pl, prm]` is merely permuted. -/

theorem partLoop_spec (K : Nat → Int) (vp : Int) (pl prm : Nat) :
    ∀ fuel f pi pj, pl ≤ pi → pi < pj → pj ≤ prm → pj - pi ≤ fuel →
      (∀ x, pl ≤ x → x ≤ pi → K (f x) ≤ vp) →
      (∀ x, pj ≤ x → x ≤ prm → vp ≤ K (f x)) →
      pi < (partLoop K vp fuel f pi pj).1 ∧ (partLoop K vp fuel f pi pj).1 ≤ pj ∧
      (∀ x, x ≤ pl ∨ prm ≤ x → (partLoop K vp fuel f pi pj).2 x = f x) ∧
      (segL (partLoop K vp fuel f pi pj).2 pl prm).Perm (segL f pl prm) ∧
      (∀ x, pl ≤ x → x < (partLoop K vp fuel f pi pj).1 →
        K ((partLoop K vp fuel f pi pj).2 x) ≤ vp) ∧
      vp ≤ K ((partLoop K vp fuel f pi pj).2 (partLoop K vp fuel f pi pj).1) ∧
      (∀ x, (partLoop K vp fuel f pi pj).1 < x → x ≤ prm →
        vp ≤ K ((partLoop K vp fuel f pi pj).2 x)) := by
  intro fuel
  induction fuel with
  | zero =>
    intro f pi pj hpl hlt hprm hfuel hL hR
    exact absurd hfuel (by omega)
  | succ fuel ih =>
    intro f pi pj hpl hlt hprm hfuel hL hR
    have hstopU : ¬ K (f pj) < vp := not_lt.mpr (hR pj (le_refl _) hprm)
    have hU := scanUp_spec K f vp (pj - pi) (pi+1) pj (by omega) (by omega) hstopU
    have hstopD : ¬ vp < K (f pi) := not_lt.mpr (hL pi hpl (le_refl _))
    have hD := scanDown_spec K f vp (pj - pi) (pj-1) pi (by omega) (by omega) hstopD
    obtain ⟨hU1, hU2, hU3, hU4⟩ := hU
    obtain ⟨hD1, hD2, hD3, hD4⟩ := hD
    simp only [partLoop]
    by_cases hc : scanDown K f vp (pj - pi) (pj-1) ≤ scanUp K f vp (pj - pi) (pi+1)
    · rw [if_pos hc]
      refine ⟨by omega, hU2, fun x _ => rfl, List.Perm.refl _, ?_, not_lt.mp hU3, ?_⟩
      · intro x hx1 hx2
        by_cases hxi : x ≤ pi
        · exact hL x hx1 hxi
        · exact le_of_lt (hU4 x (by omega) hx2)
      · intro x hx1 hx2
        by_cases hxj : pj ≤ x
        · exact hR x hxj hx2
        · exact le_of_lt (hD4 x (by omega) (by omega))
    · rw [if_neg hc]
      have hcc : scanUp K f vp (pj - pi) (pi+1) < scanDown K f vp (pj - pi) (pj-1) := by omega
      set pi2 := scanUp K f vp (pj - pi) (pi+1)
      set pj2 := scanDown K f vp (pj - pi) (pj-1)
      have hL2 : ∀ x, pl ≤ x → x ≤ pi2 → K (swapF f pi2 pj2 x) ≤ vp := by
        intro x hx1 hx2
        by_cases hxe : x = pi2
        · subst hxe
          rw [swapF_left]
          exact not_lt.mp hD3
        · rw [swapF_other f hxe (by omega)]
          by_cases hxi : x ≤ pi
          · exact hL x hx1 hxi
          · exact le_of_lt (hU4 x (by omega) (by omega))
      have hR2 : ∀ x, pj2 ≤ x → x ≤ prm → vp ≤ K (swapF f pi2 pj2 x) := by
        intro x hx1 hx2
        by_cases hxe : x = pj2
        · subst hxe
          rw [swapF_right]
          exact not_lt.mp hU3
        · rw [swapF_other f (by omega) hxe]
          by_cases hxj : pj ≤ x
          · exact hR x hxj hx2
          · exact le_of_lt (hD4 x (by omega) (by omega))
      obtain ⟨q1, q2, q3, q4, q5, q6, q7⟩ :=
        ih (swapF f pi2 pj2) pi2 pj2 (by omega) hcc (by omega) (by omega) hL2 hR2
      refine ⟨by omega, by omega, ?_, ?_, q5, q6, q7⟩
      · intro x hx
        rw [q3 x hx]
        exact swapF_other f (by omega) (by omega)
      · exact q4.trans (segL_swapF_perm f (by omega) (by omega) (by omega) (by omega))

/-! ## Median-of-3 pivot selection: specification -/

theorem cswap_le (K : Nat → Int) (f : Nat → Nat) (u v : Nat) :
    K (cswap K f u v v) ≤ K (cswap K f u v u) := by
  unfold cswap
  by_cases c : K (f u) < K (f v)
  · rw [if_pos c, swapF_right, swapF_left]
    exact le_of_lt c
  · rw [if_neg c]
    exact not_lt.mp c

theorem cswap_other {u v x : Nat} (K : Nat → Int) (f : Nat → Nat) (hx1 : x ≠ u)
    (hx2 : x ≠ v) : cswap K f u v x = f x := by
  unfold cswap
  split_ifs
  · exact swapF_other f hx1 hx2
  · rfl

theorem cswap_vals (K : Nat → Int) (f : Nat → Nat) (u v : Nat) :
    (cswap K f u v u = f u ∧ cswap K f u v v = f v) ∨
    (cswap K f u v u = f v ∧ cswap K f u v v = f u) := by
  unfold cswap
  split_ifs
  · exact Or.inr ⟨swapF_left f u v, swapF_right f u v⟩
  · exact Or.inl ⟨rfl, rfl⟩

theorem cswap_perm {lo hi u v : Nat} (K : Nat → Int) (f : Nat → Nat) (hu1 : lo ≤ u)
    (hu2 : u ≤ hi) (hv1 : lo ≤ v) (hv2 : v ≤ hi) :
    (segL (cswap K f u v) lo hi).Perm (segL f lo hi) := by
  unfold cswap
  split_ifs
  · exact segL_swapF_perm f hu1 hu2 hv1 hv2
  · exact List.Perm.refl _

theorem med3_spec (K : Nat → Int) (f : Nat → Nat) (lo pm hi : Nat) (h1 : lo < pm)
    (h2 : pm < hi) :
    K (med3 K f lo pm hi lo) ≤ K (med3 K f lo pm hi pm) ∧
    K (med3 K f lo pm hi pm) ≤ K (med3 K f lo pm hi hi) ∧
    (∀ x, x ≠ lo → x ≠ pm → x ≠ hi → med3 K f lo pm hi x = f x) ∧
    (segL (med3 K f lo pm hi) lo hi).Perm (segL f lo hi) := by
  have hpl : pm ≠ lo := by omega
  have hhp : hi ≠ pm := by omega
  have hhl : hi ≠ lo := by omega
  unfold med3
  set g1 := cswap K f pm lo with hg1
  set g2 := cswap K g1 hi pm with hg2
  have s1 : K (g1 lo) ≤ K (g1 pm) := cswap_le K f pm lo
  have s2 : K (g2 pm) ≤ K (g2 hi) := cswap_le K g1 hi pm
  have g2lo : g2 lo = g1 lo := cswap_other K g1 (Ne.symm hhl) (Ne.symm hpl)
  refine ⟨cswap_le K g2 pm lo, ?_, ?_, ?_⟩
  · have g3hi : cswap K g2 pm lo hi = g2 hi := cswap_other K g2 hhp hhl
    rw [g3hi]
    by_cases c3 : K (g2 pm) < K (g2 lo)
    · have g3pm : cswap K g2 pm lo pm = g2 lo := by
        unfold cswap
        rw [if_pos c3, swapF_left]
      rw [g3pm]
      rcases cswap_vals K g1 hi pm with ⟨e1, e2⟩ | ⟨e1, e2⟩
      · rw [g2lo] at c3
        rw [hg2, e2] at c3
        exact absurd s1 (by omega)
      · rw [g2lo, hg2, e1]
        exact s1
    · have g3 : cswap K g2 pm lo = g2 := by
        unfold cswap
        rw [if_neg c3]
      rw [g3]
      exact s2
  · intro x hx1 hx2 hx3
    rw [cswap_other K g2 hx2 hx1, hg2, cswap_other K g1 hx3 hx2, hg1,
      cswap_other K f hx2 hx1]
  · refine ((cswap_perm K g2 (by omega) (by omega) (by omega) (by omega)).trans
      ((cswap_perm K g1 (by omega) (by omega) (by omega) (by omega)).trans ?_))
    exact cswap_perm K f (by omega) (by omega) (by omega) (by omega)

/-! ## One full partition step: specification -/

theorem partitionStep_spec (K : Nat → Int) (f : Nat → Nat) (lo hi : Nat)
    (h : lo + 2 ≤ hi) :
    lo + 1 ≤ (partitionStep K f lo hi).1 ∧ (partitionStep K f lo hi).1 + 1 ≤ hi ∧
    (∀ x, x < lo ∨ hi < x → (partitionStep K f lo hi).2 x = f x) ∧
    ((segL (partitionStep K f lo hi).2 lo hi).Perm (segL f lo hi)) ∧
    ∃ vp, (∀ x, lo ≤ x → x < (partitionStep K f lo hi).1 →
            K ((partitionStep K f lo hi).2 x) ≤ vp) ∧
          K ((partitionStep K f lo hi).2 (partitionStep K f lo hi).1) = vp ∧
          (∀ x, (partitionStep K f lo hi).1 < x → x ≤ hi →
            vp ≤ K ((partitionStep K f lo hi).2 x)) := by
  simp only [partitionStep]
  set pm := lo + (hi - lo) / 2 with hpm
  have hpm1 : lo < pm := by omega
  have hpm2 : pm < hi := by omega
  obtain ⟨m1, m2, m3, m4⟩ := med3_spec K f lo pm hi hpm1 hpm2
  set f3 := med3 K f lo pm hi with hf3
  set vp := K (f3 pm) with hvp
  set f4 := swapF f3 pm (hi - 1) with hf4
  have f4lo : f4 lo = f3 lo := swapF_other f3 (by omega) (by omega)
  have f4hi1 : f4 (hi - 1) = f3 pm := swapF_right f3 pm (hi - 1)
  have f4hi : f4 hi = f3 hi := swapF_other f3 (by omega) (by omega)
  have e1 : ∀ x, lo ≤ x → x ≤ lo → K (f4 x) ≤ vp := by
    intro x hx1 hx2
    have hx : x = lo := le_antisymm hx2 hx1
    subst hx
    rw [f4lo]
    exact m1
  have e2 : ∀ x, hi - 1 ≤ x → x ≤ hi - 1 → vp ≤ K (f4 x) := by
    intro x hx1 hx2
    have hx : x = hi - 1 := le_antisymm hx2 hx1
    subst hx
    rw [f4hi1, hvp]
  obtain ⟨p1, p2, p3, p4, p5, p6, p7⟩ :=
    partLoop_spec K vp lo (hi - 1) (hi - lo) f4 lo (hi - 1) (le_refl _) (by omega)
      (le_refl _) (by omega) e1 e2
  set P := partLoop K vp (hi - lo) f4 lo (hi - 1) with hP
  have hg5hi : P.2 hi = f4 hi := p3 hi (Or.inr (by omega))
  refine ⟨by omega, by omega, ?_, ?_, vp, ?_, ?_, ?_⟩
  · intro x hx
    have hx1 : swapF P.2 P.1 (hi - 1) x = P.2 x :=
      swapF_other P.2 (by omega) (by omega)
    rw [hx1, p3 x (by omega)]
    rw [hf4, swapF_other f3 (by omega) (by omega)]
    exact m3 x (by omega) (by omega) (by omega)
  · have c1 : (segL (swapF P.2 P.1 (hi - 1)) lo hi).Perm (segL P.2 lo hi) :=
      segL_swapF_perm P.2 (by omega) (by omega) (by omega) (by omega)
    have c2 : segL P.2 lo hi = segL P.2 lo (hi - 1) ++ segL P.2 (hi - 1 + 1) hi := by
      exact segL_append P.2 lo (hi - 1) hi (by omega) (by omega)
    have c2f : segL f4 lo hi = segL f4 lo (hi - 1) ++ segL f4 (hi - 1 + 1) hi := by
      exact segL_append f4 lo (hi - 1) hi (by omega) (by omega)
    have hhi : hi - 1 + 1 = hi := by omega
    have c3 : segL P.2 (hi - 1 + 1) hi = segL f4 (hi - 1 + 1) hi := by
      rw [hhi, segL_single, segL_single, hg5hi]
    have c4 : (segL P.2 lo hi).Perm (segL f4 lo hi) := by
      rw [c2, c2f, c3]
      exact p4.append (List.Perm.refl _)
    refine c1.trans (c4.trans ?_)
    refine ((segL_swapF_perm f3 (by omega) (by omega) (by omega) (by omega)).trans m4)
  · intro x hx1 hx2
    have hx : swapF P.2 P.1 (hi - 1) x = P.2 x := swapF_other P.2 (by omega) (by omega)
    rw [hx]
    exact p5 x hx1 hx2
  · rw [swapF_left]
    have hp2 : P.2 (hi - 1) = f4 (hi - 1) := p3 (hi - 1) (Or.inr (le_refl _))
    rw [hp2, f4hi1, hvp]
  · intro x hx1 hx2
    by_cases hxh : x = hi
    · rw [hxh]
      have hx : swapF P.2 P.1 (hi - 1) hi = P.2 hi := swapF_other P.2 (by omega) (by omega)
      rw [hx, hg5hi, f4hi]
      exact m2
    · by_cases hxh1 : x = hi - 1
      · rw [hxh1, swapF_right]
        exact p6
      · have hx : swapF P.2 P.1 (hi - 1) x = P.2 x :=
          swapF_other P.2 (by omega) (by omega)
        rw [hx]
        exact p7 x hx1 (by omega)

/-! ## Gluing sorted halves around the pivot -/

theorem sortedSeg_congr {K : Nat → Int} {f g : Nat → Nat} {lo hi : Nat}
    (h : ∀ x, lo ≤ x → x ≤ hi → f x = g x) (hs : SortedSeg K f lo hi) :
    SortedSeg K g lo hi := by
  intro i j h1 h2 h3
  rw [← h i h1 (le_trans h2 h3), ← h j (le_trans h1 h2) h3]
  exact hs i j h1 h2 h3

theorem seg_pred_of_perm (P : Nat → Prop) {f g : Nat → Nat} {lo hi : Nat}
    (hperm : (segL g lo hi).Perm (segL f lo hi))
    (hb : ∀ x, lo ≤ x → x ≤ hi → P (f x)) :
    ∀ x, lo ≤ x → x ≤ hi → P (g x) := by
  intro x h1 h2
  have hm : g x ∈ segL f lo hi := hperm.mem_iff.mp (mem_segL g h1 h2)
  obtain ⟨y, hy1, hy2, hy3⟩ := exists_of_mem_segL hm
  rw [← hy3]
  exact hb y hy1 hy2

/-- After sorting the two halves `[lo, p-1]` and `[p+1, hi]` of a
partitioned range (pivot value `vp` at `p`, left half `≤ vp`, right half
`≥ vp`), the whole range is a sorted permutation of what the partition left
and the outside is untouched. -/
theorem qs_glue (K : Nat → Int) (f h0 g : Nat → Nat) (lo p hi : Nat) (vp : Int)
    (hp1 : lo + 1 ≤ p) (hp2 : p + 1 ≤ hi)
    (s3 : ∀ x, x < lo ∨ hi < x → h0 x = f x)
    (s4 : (segL h0 lo hi).Perm (segL f lo hi))
    (s5 : ∀ x, lo ≤ x → x < p → K (h0 x) ≤ vp)
    (s6 : K (h0 p) = vp)
    (s7 : ∀ x, p < x → x ≤ hi → vp ≤ K (h0 x))
    (hgout : ∀ x, x < lo ∨ hi < x → g x = h0 x)
    (hgp : g p = h0 p)
    (hpermL : (segL g lo (p-1)).Perm (segL h0 lo (p-1)))
    (hpermR : (segL g (p+1) hi).Perm (segL h0 (p+1) hi))
    (hsortL : SortedSeg K g lo (p-1))
    (hsortR : SortedSeg K g (p+1) hi) :
    (∀ x, x < lo ∨ hi < x → g x = f x) ∧
    ((segL g lo hi).Perm (segL f lo hi)) ∧ SortedSeg K g lo hi := by
  have hLg : ∀ x, lo ≤ x → x ≤ p - 1 → K (g x) ≤ vp :=
    seg_pred_of_perm (fun v => K v ≤ vp) hpermL (fun x h1 h2 => s5 x h1 (by omega))
  have hRg : ∀ x, p + 1 ≤ x → x ≤ hi → vp ≤ K (g x) :=
    seg_pred_of_perm (fun v => vp ≤ K v) hpermR (fun x h1 h2 => s7 x (by omega) h2)
  have hKp : K (g p) = vp := by rw [hgp, s6]
  refine ⟨fun x hx => (hgout x hx).trans (s3 x hx), ?_, ?_⟩
  · have hq : p - 1 + 1 = p := by omega
    have hsplit1 : segL g lo hi = segL g lo (p-1) ++ segL g p hi := by
      have := segL_append g lo (p - 1) hi (by omega) (by omega)
      rwa [hq] at this
    have hsplit2 : segL g p hi = segL g p p ++ segL g (p+1) hi :=
      segL_append g p p hi (by omega) (by omega)
    have hsplit1h : segL h0 lo hi = segL h0 lo (p-1) ++ segL h0 p hi := by
      have := segL_append h0 lo (p - 1) hi (by omega) (by omega)
      rwa [hq] at this
    have hsplit2h : segL h0 p hi = segL h0 p p ++ segL h0 (p+1) hi :=
      segL_append h0 p p hi (by omega) (by omega)
    have hmid : (segL g lo hi).Perm (segL h0 lo hi) := by
      rw [hsplit1, hsplit2, hsplit1h, hsplit2h, segL_single, segL_single, hgp]
      exact hpermL.append ((List.Perm.refl _).append hpermR)
    exact hmid.trans s4
  · intro i j h1 h2 h3
    by_cases hip : i < p
    · by_cases hjp : j < p
      · exact hsortL i j h1 h2 (by omega)
      · have h1' : K (g i) ≤ vp := hLg i h1 (by omega)
        by_cases hje : j = p
        · rw [hje, hKp]
          exact h1'
        · exact le_trans h1' (hRg j (by omega) h3)
    · by_cases hie : i = p
      · rw [hie, hKp]
        by_cases hje : j = p
        · exact le_of_eq (by rw [hje, hKp])
        · exact hRg j (by omega) h3
      · exact hsortR i j (by omega) h2 h3

/-! ## The main introsort recursion: specification -/

theorem qs_spec (K : Nat → Int) :
    ∀ fuel f lo hi d, hi + 1 - lo ≤ fuel →
      (∀ x, x < lo ∨ hi < x → (qs K fuel f lo hi d).1 x = f x) ∧
      ((segL (qs K fuel f lo hi d).1 lo hi).Perm (segL f lo hi)) ∧
      SortedSeg K (qs K fuel f lo hi d).1 lo hi := by
  intro fuel
  induction fuel with
  | zero =>
    intro f lo hi d hfuel
    exact ⟨fun x hx => rfl, List.Perm.refl _,
      fun i j h1 h2 h3 => absurd h3 (by omega)⟩
  | succ fuel ih =>
    intro f lo hi d hfuel
    simp only [qs]
    by_cases hbig : lo + 16 ≤ hi
    · rw [if_pos hbig]
      by_cases hd : d < 0
      · rw [if_pos hd]
        exact ⟨fun x hx => sortRange_outside K f hx, sortRange_perm K f lo hi,
          sortRange_sortedSeg K f lo hi⟩
      · rw [if_neg hd]
        obtain ⟨s1, s2, s3, s4, vp, s5, s6, s7⟩ := partitionStep_spec K f lo hi (by omega)
        set PR := partitionStep K f lo hi with hPR
        set p := PR.1 with hp
        by_cases hsz : p - lo < hi - p
        · rw [if_pos hsz]
          obtain ⟨a1, a2, a3⟩ := ih PR.2 lo (p-1) (d-1) (by omega)
          set Q1 := qs K fuel PR.2 lo (p-1) (d-1) with hQ1
          obtain ⟨b1, b2, b3⟩ := ih Q1.1 (p+1) hi Q1.2 (by omega)
          set Q2 := qs K fuel Q1.1 (p+1) hi Q1.2 with hQ2
          refine qs_glue K f PR.2 Q2.1 lo p hi vp s1 s2 s3 s4 s5 s6 s7 ?_ ?_ ?_ ?_ ?_ b3
          · intro x hx
            rw [b1 x (by omega), a1 x (by omega)]
          · rw [b1 p (by omega), a1 p (by omega)]
          · have e : segL Q2.1 lo (p-1) = segL Q1.1 lo (p-1) :=
              segL_congr (fun x hx1 hx2 => b1 x (Or.inl (by omega)))
            rw [e]
            exact a2
          · have e : segL Q1.1 (p+1) hi = segL PR.2 (p+1) hi :=
              segL_congr (fun x hx1 hx2 => a1 x (Or.inr (by omega)))
            have hb := b2
            rw [e] at hb
            exact hb
          · exact sortedSeg_congr (fun x hx1 hx2 => (b1 x (Or.inl (by omega))).symm) a3
        · rw [if_neg hsz]
          obtain ⟨a1, a2, a3⟩ := ih PR.2 (p+1) hi (d-1) (by omega)
          set Q1 := qs K fuel PR.2 (p+1) hi (d-1) with hQ1
          obtain ⟨b1, b2, b3⟩ := ih Q1.1 lo (p-1) Q1.2 (by omega)
          set Q2 := qs K fuel Q1.1 lo (p-1) Q1.2 with hQ2
          refine qs_glue K f PR.2 Q2.1 lo p hi vp s1 s2 s3 s4 s5 s6 s7 ?_ ?_ ?_ ?_ b3 ?_
          · intro x hx
            rw [b1 x (by omega), a1 x (by omega)]
          · rw [b1 p (by omega), a1 p (by omega)]
          · have e : segL Q1.1 lo (p-1) = segL PR.2 lo (p-1) :=
              segL_congr (fun x hx1 hx2 => a1 x (Or.inl (by omega)))
            have hb := b2
            rw [e] at hb
            exact hb
          · have e : segL Q2.1 (p+1) hi = segL Q1.1 (p+1) hi :=
              segL_congr (fun x hx1 hx2 => b1 x (Or.inr (by omega)))
            rw [e]
            exact a2
          · exact sortedSeg_congr (fun x hx1 hx2 => (b1 x (Or.inr (by omega))).symm) a3
    · rw [if_neg hbig]
      exact ⟨fun x hx => sortRange_outside K f hx, sortRange_perm K f lo hi,
        sortRange_sortedSeg K f lo hi⟩

/-! ## The argsort: permutation, sortedness, stability in the small regime -/

theorem segL_zero (g : Nat → Nat) (m : Nat) : segL g 0 m = (List.range (m+1)).map g := by
  unfold segL ivalL
  rw [List.map_map]
  simp [Function.comp]

theorem argsortQ_perm (K : Nat → Int) (n : Nat) : (argsortQ K n).Perm (List.range n) := by
  rcases Nat.eq_zero_or_pos n with rfl | hpos
  · simp [argsortQ]
  · have hq := (qs_spec K n (fun x => x) 0 (n-1) (2 * (Nat.log2 n : Int)) (by omega)).2.1
    have hn : n - 1 + 1 = n := by omega
    have h1 : segL (fun x => x) 0 (n-1) = List.range n := by
      rw [segL_zero, hn]
      simp
    have h2 : argsortQ K n = segL (qs K n (fun x => x) 0 (n-1) (2 * (Nat.log2 n : Int))).1 0 (n-1) := by
      unfold argsortQ
      rw [segL_zero, hn]
    rw [h2, ← h1]
    exact hq

theorem argsortQ_sorted (K : Nat → Int) (n : Nat) :
    List.Pairwise (fun a b => K a ≤ K b) (argsortQ K n) := by
  rcases Nat.eq_zero_or_pos n with rfl | hpos
  · simp [argsortQ]
  · have hq := (qs_spec K n (fun x => x) 0 (n-1) (2 * (Nat.log2 n : Int)) (by omega)).2.2
    unfold argsortQ
    rw [List.pairwise_map]
    refine List.pairwise_iff_getElem.mpr (fun i j h1 h2 h3 => ?_)
    rw [List.getElem_range, List.getElem_range]
    rw [List.length_range] at h1 h2
    exact hq i j (Nat.zero_le _) (le_of_lt h3) (by omega)

theorem argsortQ_small (K : Nat → Int) (n : Nat) (h : n ≤ 16) :
    argsortQ K n = List.insertionSort (kle K) (List.range n) := by
  rcases Nat.eq_zero_or_pos n with rfl | hpos
  · simp [argsortQ]
  · obtain ⟨m, rfl⟩ : ∃ m, n = m + 1 := ⟨n - 1, by omega⟩
    unfold argsortQ
    simp only [qs, Nat.add_sub_cancel]
    rw [if_neg (by omega)]
    rw [← segL_zero, segL_sortRange, segL_zero]
    congr 1
    simp

theorem insertionSort_stable_ties (K : Nat → Int) :
    ∀ l : List Nat, List.Pairwise (· < ·) l →
      List.Pairwise (fun a b => K a = K b → a < b) (List.insertionSort (kle K) l) := by
  intro l
  induction l with
  | nil => intro _; simp
  | cons x t ihp =>
    intro hp
    rw [List.pairwise_cons] at hp
    obtain ⟨hxlt, hpt⟩ := hp
    have ihs := ihp hpt
    show List.Pairwise _ (List.orderedInsert (kle K) x (List.insertionSort (kle K) t))
    rw [List.orderedInsert_eq_take_drop]
    set M := List.insertionSort (kle K) t with hM
    set A := M.takeWhile (fun b => decide ¬ (kle K) x b) with hA
    set B := M.dropWhile (fun b => decide ¬ (kle K) x b) with hB
    have hMAB : A ++ B = M := List.takeWhile_append_dropWhile _ _
    have hab := ihs
    rw [← hMAB] at hab
    rw [List.pairwise_append] at hab
    obtain ⟨hPA, hPB, hcross⟩ := hab
    have hmemM : ∀ b ∈ M, x < b := by
      intro b hb
      exact hxlt b ((List.mem_insertionSort _).mp hb)
    have hAlt : ∀ a ∈ A, K a < K x := by
      intro a ha
      have hd := List.mem_takeWhile_imp ha
      have : ¬ kle K x a := of_decide_eq_true hd
      exact not_le.mp this
    rw [List.pairwise_append]
    refine ⟨hPA, ?_, ?_⟩
    · rw [List.pairwise_cons]
      refine ⟨fun b hb _ => ?_, hPB⟩
      have hbM : b ∈ M := by
        rw [← hMAB]
        exact List.mem_append_right A hb
      exact hmemM b hbM
    · intro a ha b hb
      rcases List.mem_cons.mp hb with rfl | hbB
      · intro hK
        exact absurd hK (by have := hAlt a ha; omega)
      · exact hcross a ha b hbB

theorem argsortQ_strict (K : Nat → Int) (n : Nat)
    (hstrict : ∀ i j, i < j → j < n → K i < K j) : argsortQ K n = List.range n := by
  have hperm := argsortQ_perm K n
  have hsorted := argsortQ_sorted K n
  have hnd : (argsortQ K n).Nodup := hperm.nodup_iff.mpr (List.nodup_range n)
  have hmem : ∀ a ∈ argsortQ K n, a < n := by
    intro a ha
    exact List.mem_range.mp (hperm.mem_iff.mp ha)
  have hlt : List.Pairwise (· < ·) (argsortQ K n) := by
    refine List.pairwise_iff_getElem.mpr (fun i j h1 h2 h3 => ?_)
    have hK := List.pairwise_iff_getElem.mp hsorted i j h1 h2 h3
    have hne := List.pairwise_iff_getElem.mp hnd i j h1 h2 h3
    have hb1 := hmem _ (List.getElem_mem h1)
    have hb2 := hmem _ (List.getElem_mem h2)
    rcases Nat.lt_trichotomy ((argsortQ K n)[i]) ((argsortQ K n)[j]) with hc | hc | hc
    · exact hc
    · exact absurd hc hne
    · exact absurd hK (by have := hstrict _ _ hc hb1; omega)
  refine List.eq_of_perm_of_sorted hperm (hlt.imp (fun h => le_of_lt h)) ?_
  exact (List.pairwise_lt_range n).imp (fun h => le_of_lt h)

/-! ## The Cleaner: retained rows, sortedness, stability, fixpoints -/

theorem map_getD_range {α : Type} (l : List α) (d : α) :
    (List.range l.length).map (fun i => l.getD i d) = l := by
  refine List.ext_getElem (by simp) (fun o h1 h2 => ?_)
  rw [List.getElem_map, List.getElem_range, List.getD_eq_getElem l d h2]

/-- The Cleaner keeps exactly the rows that pass the required-column
filter, in some order. -/
theorem clean_perm_kept (raw : List Row) : (clean raw).Perm (raw.filter requiredOk) := by
  unfold clean
  refine ((argsortQ_perm _ _).map _).trans ?_
  rw [map_getD_range]

/-- Membership in the cleaned table is membership in the filtered table. -/
theorem mem_clean_iff (raw : List Row) (r : Row) :
    r ∈ clean raw ↔ r ∈ raw ∧ requiredOk r = true := by
  rw [(clean_perm_kept raw).mem_iff, List.mem_filter]

/-- The Cleaner's output is in non-decreasing date order. -/
theorem clean_sorted (raw : List Row) : DatesSorted (clean raw) := by
  unfold DatesSorted clean
  rw [List.pairwise_map]
  exact (argsortQ_sorted (keyOf (raw.filter requiredOk)) _).imp (fun h => h)

/-- A date-sorted table has a key sequence that is sorted as a function of
the position. -/
theorem dates_sorted_range {t : List Row} (hd : DatesSorted t) :
    List.Sorted (kle (keyOf t)) (List.range t.length) := by
  refine List.pairwise_iff_getElem.mpr (fun i j h1 h2 h3 => ?_)
  rw [List.length_range] at h1 h2
  have hp := List.pairwise_iff_getElem.mp hd i j h1 h2 h3
  show keyOf t (List.range t.length)[i] ≤ keyOf t (List.range t.length)[j]
  rw [List.getElem_range, List.getElem_range]
  show dateKey (t.getD i default) ≤ dateKey (t.getD j default)
  rw [List.getD_eq_getElem t default h1, List.getD_eq_getElem t default h2]
  exact hp

theorem strict_dates_keys {t : List Row} (hs : StrictDates t) :
    ∀ i j, i < j → j < t.length → keyOf t i < keyOf t j := by
  intro i j hij hj
  have hp := List.pairwise_iff_getElem.mp hs i j (by omega) hj hij
  show dateKey (t.getD i default) < dateKey (t.getD j default)
  rw [List.getD_eq_getElem t default (by omega), List.getD_eq_getElem t default hj]
  exact hp

/-- Small regime: the argsort of at most 16 retained rows is the stable
insertion sort, so ties keep their original relative order. -/
theorem stableTies_of_small (raw : List Row)
    (h : (raw.filter requiredOk).length ≤ 16) : StableTies raw := by
  unfold StableTies cleanPerm
  rw [argsortQ_small _ _ h]
  exact insertionSort_stable_ties _ _ (List.pairwise_lt_range _)

/-- An already-cleaned table with at most 16 rows, or with strictly
increasing dates, is a fixpoint of the Cleaner. -/
theorem clean_fix (t : List Row) (hc : CleanedTable t)
    (hor : t.length ≤ 16 ∨ StrictDates t) : clean t = t := by
  have hfilter : t.filter requiredOk = t := List.filter_eq_self.mpr hc.1
  unfold clean cleanPerm
  rw [hfilter]
  have hid : argsortQ (keyOf t) t.length = List.range t.length := by
    rcases hor with hsmall | hstrict
    · rw [argsortQ_small _ _ hsmall]
      exact List.Sorted.insertionSort_eq (dates_sorted_range hc.2)
    · exact argsortQ_strict _ _ (strict_dates_keys hstrict)
  rw [hid, map_getD_range]

/-! ## The Feature Engine: row preservation, Daily Change, the MA_5 window -/

theorem requiredOk_exists {r : Row} (h : requiredOk r = true) :
    ∃ d o c, r.date = some d ∧ r.openPrice = some o ∧ r.closePrice = some c := by
  unfold requiredOk at h
  rw [Bool.and_eq_true, Bool.and_eq_true] at h
  obtain ⟨⟨hd, ho⟩, hc⟩ := h
  obtain ⟨d, hd⟩ := Option.isSome_iff_exists.mp hd
  obtain ⟨o, ho⟩ := Option.isSome_iff_exists.mp ho
  obtain ⟨c, hc⟩ := Option.isSome_iff_exists.mp hc
  exact ⟨d, o, c, hd, ho, hc⟩

theorem features_length (t : List Row) : (features t).length = t.length := by
  simp [features]

theorem features_map_base (t : List Row) : (features t).map (fun r => r.base) = t := by
  refine List.ext_getElem (by simp [features]) (fun o h1 h2 => ?_)
  unfold features
  rw [List.getElem_map, List.getElem_map, List.getElem_range]
  exact List.getD_eq_getElem t default h2

theorem features_getD (t : List Row) (i : Nat) (h : i < t.length) :
    (features t).getD i default =
      { base := t.getD i default, dailyChange := dailyChangeOf (t.getD i default),
        ma5 := ma5At (closeCol t) i } := by
  unfold features
  rw [List.getD_eq_getElem _ _ (by simpa using h), List.getElem_map, List.getElem_range]

theorem dailyChangeOf_spec {r : Row} (h : requiredOk r = true) :
    dailyChangeOf r = some (r.closePrice.getD 0 - r.openPrice.getD 0) := by
  obtain ⟨d, o, c, hd, ho, hc⟩ := requiredOk_exists h
  unfold dailyChangeOf
  rw [hc, ho]
  simp [hc, ho]

theorem closeCol_of_allSome (t : List Row) (h : ∀ r ∈ t, requiredOk r = true) :
    closeCol t = (t.map (fun r => r.closePrice.getD 0)).map some := by
  unfold closeCol
  rw [List.map_map]
  refine List.map_congr_left (fun r hr => ?_)
  obtain ⟨d, o, c, hd, ho, hc⟩ := requiredOk_exists (h r hr)
  simp [hc, Function.comp]

theorem winVals_closes (l : List ℚ) (i : Nat) :
    winVals (l.map some) i = (l.take (i+1)).drop (i + 1 - 5) := by
  unfold winVals
  rw [← List.map_take, ← List.map_drop, List.filterMap_map]
  simp

theorem sum_map_range (g : ℕ → ℚ) (k : ℕ) :
    ((List.range k).map g).sum = ∑ j in Finset.range k, g j := by
  induction k with
  | zero => simp
  | succ k ih =>
    rw [List.range_succ, List.map_append, List.sum_append, Finset.sum_range_succ, ih]
    simp

theorem window_length (l : List ℚ) (i : Nat) (h : i < l.length) :
    ((l.take (i+1)).drop (i + 1 - 5)).length = min 5 (i+1) := by
  rw [List.length_drop, List.length_take]
  omega

theorem window_sum (l : List ℚ) (i : Nat) (h : i < l.length) :
    ((l.take (i+1)).drop (i + 1 - 5)).sum = ∑ j in Finset.Icc (i - 4) i, l.getD j 0 := by
  have hW : (l.take (i+1)).drop (i+1-5) =
      (List.range (min 5 (i+1))).map (fun o => l.getD (i+1-5+o) 0) := by
    refine List.ext_getElem ?_ (fun o h1 h2 => ?_)
    · rw [window_length l i h]
      simp
    · rw [List.getElem_map, List.getElem_range, List.getElem_drop, List.getElem_take]
      rw [window_length l i h] at h1
      exact (List.getD_eq_getElem l 0 (by omega)).symm
  rw [hW, sum_map_range]
  rw [← Nat.Ico_succ_right, Finset.sum_Ico_eq_sum_range]
  have h1 : i + 1 - (i - 4) = min 5 (i + 1) := by omega
  have h2 : i + 1 - 5 = i - 4 := by omega
  rw [h1, h2]

theorem ma5At_spec (t : List Row) (h : ∀ r ∈ t, requiredOk r = true) (i : Nat)
    (hi : i < t.length) :
    ma5At (closeCol t) i =
      some ((∑ j in Finset.Icc (i - 4) i, (t.map (fun r => r.closePrice.getD 0)).getD j 0) /
        ((min 5 (i+1) : ℕ) : ℚ)) := by
  have hlen : (t.map (fun r => r.closePrice.getD 0)).length = t.length := by simp
  have hc : closeCol t = (t.map (fun r => r.closePrice.getD 0)).map some :=
    closeCol_of_allSome t h
  unfold ma5At
  rw [hc, winVals_closes]
  rw [window_length _ i (by omega), window_sum _ i (by omega)]
  rw [if_neg (by omega)]

/-! ## Claim theorems -/

/-- Claim C1: for every row `i` of the cleaned, date-sorted table, `MA_5[i]`
is the arithmetic mean of `Close Price` over rows `max (0, i-4) .. i`
inclusive (window of size `min 5 (i+1)`, so `MA_5[0] = Close Price[0]`),
and the table over which the features are computed is in ascending date
order regardless of the input order (`i - 4` is the truncated subtraction
`max 0 (i - 4)`). -/
theorem claim_C1_ma5_window (raw : List Row) (i : Nat)
    (h : i < (features (clean raw)).length) :
    ((features (clean raw)).getD i default).ma5 =
      some ((∑ j in Finset.Icc (i - 4) i,
        ((clean raw).map (fun r => r.closePrice.getD 0)).getD j 0) /
        ((min 5 (i+1) : ℕ) : ℚ)) ∧
    DatesSorted (clean raw) := by
  rw [features_length] at h
  constructor
  · rw [features_getD _ _ h]
    show ma5At (closeCol (clean raw)) i = _
    exact ma5At_spec (clean raw) (fun r hr => ((mem_clean_iff raw r).mp hr).2) i h
  · exact clean_sorted raw

/-- Witness for C1: the example table handed over in reverse date order,
window at row 1. -/
theorem claim_C1_witness :
    1 < (features (clean exampleRev)).length ∧
    (((features (clean exampleRev)).getD 1 default).ma5 =
      some ((∑ j in Finset.Icc (1 - 4) 1,
        ((clean exampleRev).map (fun r => r.closePrice.getD 0)).getD j 0) /
        ((min 5 (1+1) : ℕ) : ℚ)) ∧
      DatesSorted (clean exampleRev)) :=
  ⟨by decide, claim_C1_ma5_window exampleRev 1 (by decide)⟩

/-- Claim C2: on the cleaned table every row has both prices present, and
`Daily Change` is exactly `Close Price - Open Price`. -/
theorem claim_C2_daily_change (raw : List Row) (r : FeatRow)
    (h : r ∈ features (clean raw)) :
    ∃ c o, r.base.closePrice = some c ∧ r.base.openPrice = some o ∧
      r.dailyChange = some (c - o) := by
  obtain ⟨i, hi, hr⟩ := List.mem_iff_getElem.mp h
  have hi2 := hi
  rw [features_length] at hi2
  have hgete : (features (clean raw))[i] = (features (clean raw)).getD i default :=
    (List.getD_eq_getElem _ _ hi).symm
  rw [hgete, features_getD _ _ hi2] at hr
  have hmem : (clean raw).getD i default ∈ clean raw := by
    rw [List.getD_eq_getElem _ _ hi2]
    exact List.getElem_mem hi2
  have hreq := ((mem_clean_iff raw _).mp hmem).2
  obtain ⟨d, o, c, hd, ho, hc⟩ := requiredOk_exists hreq
  subst hr
  refine ⟨c, o, hc, ho, ?_⟩
  show dailyChangeOf ((clean raw).getD i default) = some (c - o)
  rw [dailyChangeOf_spec hreq, hc, ho]
  rfl

/-- Witness for C2 at row 0 of the example table. -/
theorem claim_C2_witness :
    ∃ c o, ((features (clean exampleC7)).getD 0 default).base.closePrice = some c ∧
      ((features (clean exampleC7)).getD 0 default).base.openPrice = some o ∧
      ((features (clean exampleC7)).getD 0 default).dailyChange = some (c - o) := by
  have hlt : 0 < (features (clean exampleC7)).length := by decide
  have h : (features (clean exampleC7)).getD 0 default ∈ features (clean exampleC7) := by
    rw [List.getD_eq_getElem _ _ hlt]
    exact List.getElem_mem hlt
  exact claim_C2_daily_change exampleC7 _ h

/-- Claim C3: for every input table, the Date column of the Cleaner's
output is non-decreasing. -/
theorem claim_C3_clean_sorted (raw : List Row) : DatesSorted (clean raw) :=
  clean_sorted raw

/-- Counterexample to C4 as stated: on 17 retained rows sharing one date,
numpy's default quicksort (used by `sort_values(by="Date")`) does not keep
equal-date rows in their original relative order. -/
theorem claim_C4_counterexample : ¬ StableTies tie17 := by decide

/-- Claim C4 amended: the sort keeps every pair of equal-date retained rows
in their original relative order provided at most 16 rows survive the
filter (numpy's insertion-sort regime). -/
theorem claim_C4_stable_small (raw : List Row)
    (h : (raw.filter requiredOk).length ≤ 16) : StableTies raw :=
  stableTies_of_small raw h

/-- Witness for the amended C4: a 3-row table with one duplicated date. -/
theorem claim_C4_witness :
    (rawTieSmall.filter requiredOk).length ≤ 16 ∧ StableTies rawTieSmall :=
  ⟨by decide, claim_C4_stable_small rawTieSmall (by decide)⟩

/-- Claim C5: the Cleaner removes exactly the rows with a null in a
required column — the output is a permutation of the filtered input, a row
with null `Open Price` is gone, and a row whose required columns are all
present (for example with only `Volume` null) is retained. -/
theorem claim_C5_dropna (raw : List Row) :
    (clean raw).Perm (raw.filter (fun r =>
      r.date.isSome && r.openPrice.isSome && r.closePrice.isSome)) ∧
    (∀ r ∈ raw, r.openPrice = none → r ∉ clean raw) ∧
    (∀ r ∈ raw, r.date.isSome = true → r.openPrice.isSome = true →
      r.closePrice.isSome = true → r ∈ clean raw) := by
  refine ⟨clean_perm_kept raw, ?_, ?_⟩
  · intro r hr hop hmem
    have hreq := ((mem_clean_iff raw r).mp hmem).2
    obtain ⟨d, o, c, hd, ho, hc⟩ := requiredOk_exists hreq
    rw [hop] at ho
    exact Option.noConfusion ho
  · intro r hr h1 h2 h3
    refine (mem_clean_iff raw r).mpr ⟨hr, ?_⟩
    unfold requiredOk
    rw [h1, h2, h3]
    rfl

/-- Witness for C5: the droppable row is gone, the volume-null row stays. -/
theorem claim_C5_witness :
    badOpenRow ∉ clean rawC5 ∧ volNullRow ∈ clean rawC5 :=
  ⟨(claim_C5_dropna rawC5).2.1 badOpenRow (by decide) (by decide),
   (claim_C5_dropna rawC5).2.2 volNullRow (by decide) (by decide) (by decide) (by decide)⟩

/-- Counterexample to C6 as stated: `tie17` is already cleaned (no nulls,
dates non-decreasing), yet running the Cleaner on it permutes the rows. -/
theorem claim_C6_counterexample : CleanedTable tie17 ∧ clean tie17 ≠ tie17 := by
  decide

/-- Claim C6 amended: the Cleaner is idempotent on an already-cleaned table
provided the table has at most 16 rows or its dates are strictly
increasing. -/
theorem claim_C6_idempotent (t : List Row) (hc : CleanedTable t)
    (hor : t.length ≤ 16 ∨ StrictDates t) : clean t = t :=
  clean_fix t hc hor

/-- Witness for the amended C6 on the already-sorted example table. -/
theorem claim_C6_witness :
    CleanedTable exampleC7 ∧ clean exampleC7 = exampleC7 :=
  ⟨by decide, claim_C6_idempotent exampleC7 (by decide) (Or.inl (by decide))⟩

/-- Claim C7: the spec's example scenario: `Daily Change = [5, -3, 6]`,
`MA_5 = [105, 103.5, 105]`, `avg_change = 8/3`, printed as `2.67` after
rounding to two decimals. -/
theorem claim_C7_example :
    (run exampleC7).featured.map (fun r => r.dailyChange) = [some 5, some (-3), some 6] ∧
    (run exampleC7).featured.map (fun r => r.ma5) = [some 105, some (207/2), some 105] ∧
    (run exampleC7).avg_change = some (8/3) ∧
    Option.map round2 (run exampleC7).avg_change = some (267/100) := by
  have h : clean exampleC7 = exampleC7 := by decide
  have h1 : (run exampleC7).featured.map (fun r => r.dailyChange) =
      [some 5, some (-3), some 6] := by
    show (features (clean exampleC7)).map (fun r => r.dailyChange) = _
    rw [h]
    norm_num [features, List.range_succ, dailyChangeOf, exampleC7, mkRow]
  have h2 : (run exampleC7).featured.map (fun r => r.ma5) =
      [some 105, some (207/2), some 105] := by
    show (features (clean exampleC7)).map (fun r => r.ma5) = _
    rw [h]
    simp only [features, List.range_succ, List.range_zero, ma5At, winVals, closeCol,
      exampleC7, mkRow, List.map_append, List.map_cons, List.map_nil, List.nil_append,
      List.cons_append, List.getD, List.take, List.drop, List.filterMap, id_eq,
      List.length, List.sum_cons, List.sum_nil, List.getElem?_cons_zero,
      List.getElem?_cons_succ]
    norm_num
  have h3 : (run exampleC7).avg_change = some (8/3) := by
    show meanSkipNA ((features (clean exampleC7)).map (fun r => r.dailyChange)) = _
    rw [h]
    simp only [features, List.range_succ, List.range_zero, dailyChangeOf, exampleC7, mkRow,
      meanSkipNA, List.map_append, List.map_cons, List.map_nil, List.nil_append,
      List.cons_append, List.getD, List.filterMap, id_eq, List.length, List.sum_cons,
      List.sum_nil, List.getElem?_cons_zero, List.getElem?_cons_succ]
    norm_num
  refine ⟨h1, h2, h3, ?_⟩
  rw [h3]
  show some (round2 (8/3)) = some (267/100)
  norm_num [round2, round_eq]

/-- Counterexample to C8 as stated: the printed head/info/describe tables
are not the feature-engineered table — on a table whose single row has a
null `Open Price`, the sanity checks still show that row while the
feature-engineered table is empty. -/
theorem claim_C8_counterexample :
    ¬ ((run rawC8).headRows = ((run rawC8).featured.map (fun r => r.base)).take 5 ∧
       (run rawC8).infoTable = (run rawC8).featured.map (fun r => r.base) ∧
       (run rawC8).describeTable = (run rawC8).featured.map (fun r => r.base)) := by
  decide

/-- Claim C8 amended: head, info and describe are computed over the raw
loaded table (lines 45-52 run before `dropna`/`sort_values`/features);
only the summary scalars are computed over the feature-engineered table. -/
theorem claim_C8_amended (raw : List Row) :
    (run raw).headRows = raw.take 5 ∧ (run raw).infoTable = raw ∧
    (run raw).describeTable = raw ∧
    (run raw).featured = features (clean raw) ∧
    (run raw).avg_change = meanSkipNA ((features (clean raw)).map (fun r => r.dailyChange)) :=
  ⟨rfl, rfl, rfl, rfl, rfl⟩

/-- Claim C9: when cleaning leaves zero rows, the three summary scalars are
the undefined marker (pandas `NaN`, modelled as `none`) and the run still
produces its full output. -/
theorem claim_C9_empty (raw : List Row) (h : clean raw = []) :
    (run raw).avg_change = none ∧ (run raw).max_close = none ∧
    (run raw).min_close = none ∧ (run raw).featured = [] := by
  have hf : features (clean raw) = [] := by
    rw [h]
    rfl
  refine ⟨?_, ?_, ?_, ?_⟩
  · show meanSkipNA ((features (clean raw)).map (fun r => r.dailyChange)) = none
    rw [hf]
    rfl
  · show maxSkipNA ((features (clean raw)).map (fun r => r.base.closePrice)) = none
    rw [hf]
    rfl
  · show minSkipNA ((features (clean raw)).map (fun r => r.base.closePrice)) = none
    rw [hf]
    rfl
  · show features (clean raw) = []
    exact hf

/-- Witness for C9: one row with a null `Open Price`. -/
theorem claim_C9_witness :
    clean rawC9 = [] ∧ ((run rawC9).avg_change = none ∧ (run rawC9).max_close = none ∧
      (run rawC9).min_close = none ∧ (run rawC9).featured = []) :=
  ⟨by decide, claim_C9_empty rawC9 (by decide)⟩

/-- Claim C10: the Feature Engine only appends the two derived columns —
row count, row order and every pre-existing column are unchanged. -/
theorem claim_C10_frame (t : List Row) :
    (features t).length = t.length ∧ (features t).map (fun r => r.base) = t :=
  ⟨features_length t, features_map_base t⟩

end StockPipeline
